import Mathlib

/-!
Verification development for the WebhookRelay repository.

Go strings are modelled as byte lists (`List Nat`); all source functions are
translated into executable Lean definitions and the spec claims are settled
as theorems about those definitions.
-/

namespace WebhookRelay

/-- A Go string, as its byte sequence. -/
abbrev Str := List Nat

/-- Bytes of an ASCII Lean string literal (used only to write concrete values). -/
def bytes (s : String) : Str :=
  s.toList.map Char.toNat

/-- The ASCII whitespace bytes trimmed by Go `strings.TrimSpace`
(`'\t' '\n' '\v' '\f' '\r' ' '`; the ASCII fast path of `unicode.IsSpace`). -/
def isSpaceB (b : Nat) : Bool :=
  b == 9 || b == 10 || b == 11 || b == 12 || b == 13 || b == 32

/-- Drop leading whitespace (the left half of `strings.TrimSpace`). -/
def trimLeft (l : Str) : Str :=
  l.dropWhile isSpaceB

/-- Drop trailing whitespace (the right half of `strings.TrimSpace`). -/
def trimRight (l : Str) : Str :=
  (l.reverse.dropWhile isSpaceB).reverse

/-- Go `strings.TrimSpace`. -/
def trimSpace (l : Str) : Str :=
  trimRight (trimLeft l)

/-- Go `strings.Split(s, sep)` for a single-byte separator `b`.
`strings.Split` of the empty string is `[""]`. -/
def splitOnB (b : Nat) : Str → List Str
  | [] => [[]]
  | c :: rest =>
    if c == b then [] :: splitOnB b rest
    else
      match splitOnB b rest with
      | [] => [[c]]
      | g :: gs => (c :: g) :: gs

/-- Go `strings.Join(parts, sep)` for a single-byte separator `b`. -/
def joinB (b : Nat) : List Str → Str
  | [] => []
  | [x] => x
  | x :: y :: xs => x ++ b :: joinB b (y :: xs)

/-- The comma byte, the separator of the trace header value. -/
def commaB : Nat := 44

/-- `appendTrace` from the forwarder (`internal/relay`): append this relay's id
to the comma-separated trace header value. -/
def appendTrace (existing instanceID : Str) : Str :=
  let existing := trimSpace existing
  let instanceID := trimSpace instanceID
  if instanceID == [] then existing
  else if existing == [] then instanceID
  else
    let parts := splitOnB commaB existing
    let out := (parts.map trimSpace).filter (fun p => !(p == []))
    joinB commaB (out ++ [instanceID])

/-- `traceContains` from the server (`internal/server`): does the
comma-separated trace already carry `instanceID`? -/
def traceContains (trace instanceID : Str) : Bool :=
  let instanceID := trimSpace instanceID
  if instanceID == [] then false
  else (splitOnB commaB trace).any (fun p => trimSpace p == instanceID)

/-! ### Generic facts about `dropWhile`, trimming and splitting -/

theorem dropWhile_dropWhile (p : Nat → Bool) (l : List Nat) :
    (l.dropWhile p).dropWhile p = l.dropWhile p := by
  induction l with
  | nil => rfl
  | cons a t ih =>
    by_cases h : p a = true
    · simpa [List.dropWhile_cons, h] using ih
    · simp [List.dropWhile_cons, h]

theorem dropWhile_prepend_of_all (p : Nat → Bool) (w x : List Nat)
    (hw : ∀ c ∈ w, p c = true) : (w ++ x).dropWhile p = x.dropWhile p := by
  induction w with
  | nil => rfl
  | cons a t ih =>
    have ha : p a = true := hw a (by simp)
    simp only [List.cons_append, List.dropWhile_cons, ha, if_true]
    exact ih (fun c hc => hw c (by simp [hc]))

theorem dropWhile_cons_of_neg (p : Nat → Bool) (a : Nat) (t : List Nat)
    (h : p a = false) : (a :: t).dropWhile p = a :: t := by
  simp [List.dropWhile_cons, h]

theorem dropWhile_shape (p : Nat → Bool) (l : List Nat) :
    l.dropWhile p = [] ∨
      ∃ a t, l.dropWhile p = a :: t ∧ p a = false := by
  induction l with
  | nil => exact Or.inl rfl
  | cons a t ih =>
    by_cases h : p a = true
    · simpa [List.dropWhile_cons, h] using ih
    · exact Or.inr ⟨a, t, by simp [List.dropWhile_cons, h], by simpa using h⟩

theorem trimLeft_eq_nil_iff (l : Str) :
    trimLeft l = [] ↔ ∀ c ∈ l, isSpaceB c = true := by
  simp [trimLeft, List.dropWhile_eq_nil_iff]

theorem trimRight_eq_nil_iff (l : Str) :
    trimRight l = [] ↔ ∀ c ∈ l, isSpaceB c = true := by
  constructor
  · intro h c hc
    have : l.reverse.dropWhile isSpaceB = [] := by
      have := congrArg List.reverse h
      simpa [trimRight] using this
    exact (List.dropWhile_eq_nil_iff.mp this) c (by simpa using hc)
  · intro h
    have : l.reverse.dropWhile isSpaceB = [] :=
      List.dropWhile_eq_nil_iff.mpr (fun c hc => h c (by simpa using hc))
    simp [trimRight, this]

theorem trimLeft_decomp (l : Str) :
    ∃ w, (∀ c ∈ w, isSpaceB c = true) ∧ l = w ++ trimLeft l := by
  refine ⟨l.takeWhile isSpaceB, ?_, ?_⟩
  · intro c hc; exact List.mem_takeWhile_imp hc
  · exact (List.takeWhile_append_dropWhile (p := isSpaceB) (l := l)).symm

theorem trimRight_decomp (l : Str) :
    ∃ w, (∀ c ∈ w, isSpaceB c = true) ∧ l = trimRight l ++ w := by
  refine ⟨(l.reverse.takeWhile isSpaceB).reverse, ?_, ?_⟩
  · intro c hc
    exact List.mem_takeWhile_imp (by simpa using hc)
  · conv_lhs => rw [← List.reverse_reverse l,
      ← List.takeWhile_append_dropWhile (p := isSpaceB) (l := l.reverse)]
    rw [List.reverse_append]
    rfl

theorem trimRight_prepend_of_all (w x : Str)
    (hw : ∀ c ∈ w, isSpaceB c = true) : trimRight (x ++ w) = trimRight x := by
  unfold trimRight
  rw [List.reverse_append, dropWhile_prepend_of_all _ _ _ (fun c hc => hw c (by simpa using hc))]

theorem trimSpace_prepend_of_all (w x : Str)
    (hw : ∀ c ∈ w, isSpaceB c = true) : trimSpace (w ++ x) = trimSpace x := by
  unfold trimSpace trimLeft
  rw [dropWhile_prepend_of_all _ _ _ hw]

theorem trimLeft_shape (l : Str) :
    trimLeft l = [] ∨ ∃ a t, trimLeft l = a :: t ∧ isSpaceB a = false :=
  dropWhile_shape isSpaceB l

theorem trimSpace_append_of_all (w x : Str)
    (hw : ∀ c ∈ w, isSpaceB c = true) : trimSpace (x ++ w) = trimSpace x := by
  rcases trimLeft_shape x with h | ⟨a, t, h, ha⟩
  · have hx : ∀ c ∈ x, isSpaceB c = true := (trimLeft_eq_nil_iff x).mp h
    have h1 : trimSpace (x ++ w) = [] := by
      have : trimLeft (x ++ w) = [] :=
        (trimLeft_eq_nil_iff _).mpr (by
          intro c hc
          rcases List.mem_append.mp hc with hc | hc
          · exact hx c hc
          · exact hw c hc)
      simp [trimSpace, this, trimRight]
    have h2 : trimSpace x = [] := by simp [trimSpace, h, trimRight]
    rw [h1, h2]
  · obtain ⟨v, hv, hxd⟩ := trimLeft_decomp x
    have hxw : trimLeft (x ++ w) = (a :: t) ++ w := by
      conv_lhs => rw [hxd, h]
      unfold trimLeft
      rw [List.append_assoc, dropWhile_prepend_of_all _ _ _ hv]
      exact dropWhile_cons_of_neg _ _ _ ha
    unfold trimSpace
    rw [hxw, h, trimRight_prepend_of_all _ _ hw]

theorem trimSpace_eq_nil_iff (l : Str) :
    trimSpace l = [] ↔ ∀ c ∈ l, isSpaceB c = true := by
  constructor
  · intro h c hc
    obtain ⟨w, hw, hd⟩ := trimLeft_decomp l
    have hall : ∀ c ∈ trimLeft l, isSpaceB c = true :=
      (trimRight_eq_nil_iff _).mp h
    rw [hd] at hc
    rcases List.mem_append.mp hc with hc | hc
    · exact hw c hc
    · exact hall c hc
  · intro h
    have : trimLeft l = [] := (trimLeft_eq_nil_iff l).mpr h
    simp [trimSpace, this, trimRight]

theorem trimRight_trimRight (l : Str) : trimRight (trimRight l) = trimRight l := by
  unfold trimRight
  rw [List.reverse_reverse, dropWhile_dropWhile]

theorem trimSpace_idem (l : Str) : trimSpace (trimSpace l) = trimSpace l := by
  rcases trimLeft_shape l with h | ⟨a, t, h, ha⟩
  · have h2 : trimSpace l = [] := by simp [trimSpace, h, trimRight]
    rw [h2]
    rfl
  · have hz : trimSpace l = trimRight (a :: t) := by rw [trimSpace, h]
    obtain ⟨w, _, hw⟩ := trimRight_decomp (a :: t)
    have hL : trimLeft (trimSpace l) = trimSpace l := by
      rw [hz]
      rcases heq : trimRight (a :: t) with _ | ⟨b, s⟩
      · rfl
      · have hb : b = a := by
          have := hw
          rw [heq] at this
          cases this
          rfl
        exact dropWhile_cons_of_neg _ _ _ (hb ▸ ha)
    calc trimSpace (trimSpace l) = trimRight (trimSpace l) := by rw [trimSpace, hL]
      _ = trimSpace l := by rw [hz, trimRight_trimRight]

theorem mem_trimLeft (c : Nat) (l : Str) (h : c ∈ trimLeft l) : c ∈ l := by
  obtain ⟨w, _, hd⟩ := trimLeft_decomp l
  rw [hd]
  exact List.mem_append.mpr (Or.inr h)

theorem mem_trimSpace (c : Nat) (l : Str) (h : c ∈ trimSpace l) : c ∈ l := by
  obtain ⟨w, _, hd⟩ := trimRight_decomp (trimLeft l)
  apply mem_trimLeft
  rw [hd]
  exact List.mem_append.mpr (Or.inl h)

theorem splitOnB_ne_nil (b : Nat) (l : Str) : splitOnB b l ≠ [] := by
  cases l with
  | nil => simp [splitOnB]
  | cons c rest =>
    by_cases h : c == b
    · simp [splitOnB, h]
    · simp only [splitOnB, h, Bool.false_eq_true, if_false]
      rcases heq : splitOnB b rest with _ | ⟨g, gs⟩ <;> simp

theorem splitOnB_cons_sep (b : Nat) (s : Str) :
    splitOnB b (b :: s) = [] :: splitOnB b s := by
  simp [splitOnB]

theorem splitOnB_cons_eq (b c : Nat) (s : Str) (g : Str) (gs : List Str)
    (h : splitOnB b s = g :: gs) (hc : c ≠ b) :
    splitOnB b (c :: s) = (c :: g) :: gs := by
  simp [splitOnB, hc, h]

theorem mem_splitOnB (b : Nat) (l : Str) (p : Str) (hp : p ∈ splitOnB b l) :
    b ∉ p := by
  induction l generalizing p with
  | nil =>
    simp [splitOnB] at hp
    simp [hp]
  | cons c rest ih =>
    by_cases h : c = b
    · subst h
      rw [splitOnB_cons_sep] at hp
      rcases List.mem_cons.mp hp with h | h
      · simp [h]
      · exact ih p h
    · rcases heq : splitOnB b rest with _ | ⟨g, gs⟩
      · exact absurd heq (splitOnB_ne_nil b rest)
      · rw [splitOnB_cons_eq b c rest g gs heq h] at hp
        rcases List.mem_cons.mp hp with hh | hh
        · subst hh
          intro hmem
          rcases List.mem_cons.mp hmem with h1 | h1
          · exact h h1.symm
          · exact ih g (heq ▸ List.mem_cons_self g gs) h1
        · exact ih p (heq ▸ List.mem_cons.mpr (Or.inr hh))

theorem splitOnB_eq_single (b : Nat) (a : Str) (ha : b ∉ a) :
    splitOnB b a = [a] := by
  induction a with
  | nil => rfl
  | cons c t ih =>
    have hc : c ≠ b := fun h => ha (h ▸ List.mem_cons_self c t)
    have ht : b ∉ t := fun h => ha (List.mem_cons.mpr (Or.inr h))
    exact splitOnB_cons_eq b c t t [] (ih ht) hc

theorem splitOnB_append_sep (b : Nat) (a s : Str) (ha : b ∉ a) :
    splitOnB b (a ++ b :: s) = a :: splitOnB b s := by
  induction a with
  | nil => exact splitOnB_cons_sep b s
  | cons c t ih =>
    have hc : c ≠ b := fun h => ha (h ▸ List.mem_cons_self c t)
    have ht : b ∉ t := fun h => ha (List.mem_cons.mpr (Or.inr h))
    rcases heq : splitOnB b (t ++ b :: s) with _ | ⟨g, gs⟩
    · exact absurd heq (splitOnB_ne_nil b _)
    · have := ih ht
      rw [heq] at this
      cases this
      simpa using splitOnB_cons_eq b c (t ++ b :: s) t (splitOnB b s) heq hc

theorem splitOnB_joinB (b : Nat) (L : List Str) (hne : L ≠ [])
    (hfree : ∀ x ∈ L, b ∉ x) : splitOnB b (joinB b L) = L := by
  induction L with
  | nil => exact absurd rfl hne
  | cons x xs ih =>
    cases xs with
    | nil =>
      simp only [joinB]
      exact splitOnB_eq_single b x (hfree x (by simp))
    | cons y ys =>
      have hx : b ∉ x := hfree x (by simp)
      simp only [joinB]
      rw [splitOnB_append_sep b x _ hx]
      rw [ih (by simp) (fun z hz => hfree z (List.mem_cons.mpr (Or.inr hz)))]

theorem dropLast_append_getLastD (S : List Str) (h : S ≠ []) :
    S.dropLast ++ [S.getLastD []] = S := by
  induction S with
  | nil => exact absurd rfl h
  | cons a t ih =>
    cases t with
    | nil => rfl
    | cons b s =>
      have hih := ih (by simp)
      rw [List.getLastD_cons] at hih
      simp only [List.dropLast_cons₂, List.getLastD_cons, List.cons_append,
        List.cons.injEq, true_and]
      exact hih

theorem splitOnB_append_nosep (b : Nat) (w : Str) (hw : b ∉ w) :
    ∀ s : Str, splitOnB b (s ++ w) =
      (splitOnB b s).dropLast ++ [(splitOnB b s).getLastD [] ++ w] := by
  intro s
  induction s with
  | nil =>
    simp only [List.nil_append, splitOnB, List.dropLast_nil]
    rw [splitOnB_eq_single b w hw]
    rfl
  | cons c s' ih =>
    by_cases hc : c = b
    · subst hc
      rw [List.cons_append, splitOnB_cons_sep, ih, splitOnB_cons_sep]
      rcases heq : splitOnB c s' with _ | ⟨g', gs'⟩
      · exact absurd heq (splitOnB_ne_nil c s')
      · simp only [List.dropLast_cons₂, List.getLastD_cons, List.cons_append,
          List.cons.injEq, true_and]
    · rcases heq : splitOnB b s' with _ | ⟨g', gs'⟩
      · exact absurd heq (splitOnB_ne_nil b s')
      · rw [splitOnB_cons_eq b c s' g' gs' heq hc]
        cases gs' with
        | nil =>
          have hsw : splitOnB b (s' ++ w) = [g' ++ w] := by
            rw [ih, heq]
            rfl
          rw [List.cons_append, splitOnB_cons_eq b c (s' ++ w) (g' ++ w) [] hsw hc]
          rfl
        | cons h t =>
          have hsw : splitOnB b (s' ++ w) =
              g' :: ((h :: t).dropLast ++ [(h :: t).getLastD [] ++ w]) := by
            rw [ih, heq]
            simp only [List.dropLast_cons₂, List.getLastD_cons, List.cons_append,
              List.cons.injEq, true_and]
          rw [List.cons_append,
            splitOnB_cons_eq b c (s' ++ w) g'
              ((h :: t).dropLast ++ [(h :: t).getLastD [] ++ w]) hsw hc]
          simp only [List.dropLast_cons₂, List.getLastD_cons, List.cons_append,
            List.cons.injEq, true_and]

theorem isSpaceB_comma : isSpaceB commaB = false := by decide

theorem map_trim_splitOnB_space_prepend (w s : Str)
    (hw : ∀ c ∈ w, isSpaceB c = true) :
    (splitOnB commaB (w ++ s)).map trimSpace =
      (splitOnB commaB s).map trimSpace := by
  induction w with
  | nil => rfl
  | cons c w' ih =>
    have hc : isSpaceB c = true := hw c (by simp)
    have hcb : c ≠ commaB := by
      intro h
      rw [h, isSpaceB_comma] at hc
      exact Bool.false_ne_true hc
    rcases heq : splitOnB commaB (w' ++ s) with _ | ⟨g, gs⟩
    · exact absurd heq (splitOnB_ne_nil _ _)
    · rw [List.cons_append, splitOnB_cons_eq commaB c (w' ++ s) g gs heq hcb]
      have htrim : trimSpace (c :: g) = trimSpace g := by
        have := trimSpace_prepend_of_all [c] g (by
          intro x hx
          rcases List.mem_singleton.mp hx with rfl
          exact hc)
        simpa using this
      have hIH := ih (fun x hx => hw x (List.mem_cons.mpr (Or.inr hx)))
      rw [heq] at hIH
      simp only [List.map_cons] at hIH ⊢
      rw [htrim]
      exact hIH

theorem map_trim_splitOnB_space_append (w s : Str)
    (hw : ∀ c ∈ w, isSpaceB c = true) :
    (splitOnB commaB (s ++ w)).map trimSpace =
      (splitOnB commaB s).map trimSpace := by
  have hfree : commaB ∉ w := by
    intro h
    have := hw commaB h
    rw [isSpaceB_comma] at this
    exact Bool.false_ne_true this
  rw [splitOnB_append_nosep commaB w hfree s]
  have hne := splitOnB_ne_nil commaB s
  have hlast : trimSpace ((splitOnB commaB s).getLastD [] ++ w) =
      trimSpace ((splitOnB commaB s).getLastD []) :=
    trimSpace_append_of_all w _ hw
  calc ((splitOnB commaB s).dropLast ++ [(splitOnB commaB s).getLastD [] ++ w]).map trimSpace
      = (splitOnB commaB s).dropLast.map trimSpace ++
          [trimSpace ((splitOnB commaB s).getLastD [])] := by
        rw [List.map_append, List.map_singleton, hlast]
    _ = ((splitOnB commaB s).dropLast ++ [(splitOnB commaB s).getLastD []]).map trimSpace := by
        rw [List.map_append, List.map_singleton]
    _ = (splitOnB commaB s).map trimSpace := by
        rw [dropLast_append_getLastD _ hne]

theorem map_trim_splitOnB_trimSpace (t : Str) :
    (splitOnB commaB (trimSpace t)).map trimSpace =
      (splitOnB commaB t).map trimSpace := by
  obtain ⟨w1, hw1, hd1⟩ := trimLeft_decomp t
  obtain ⟨w2, hw2, hd2⟩ := trimRight_decomp (trimLeft t)
  have : t = w1 ++ (trimSpace t ++ w2) := by
    have h3 : trimSpace t = trimRight (trimLeft t) := rfl
    rw [h3, ← hd2, ← hd1]
  conv_rhs => rw [this]
  rw [map_trim_splitOnB_space_prepend _ _ hw1,
    map_trim_splitOnB_space_append _ _ hw2]

/-! ### Claims C2 and C3: `appendTrace` -/

/-- Modelled from the spec: the `append(trace, relayID)` algorithm exactly as §4.4
words it — split the trace on commas, trim each segment and drop empty segments,
append the trimmed relay ID at the end, and rejoin with commas.  Used only as the
comparison point for the refinement claims about `appendTrace`. -/
def specAppendTrace (t relayID : Str) : Str :=
  joinB commaB
    ((((splitOnB commaB t).map trimSpace).filter (fun p => !(p == []))) ++
      [trimSpace relayID])

/-- Claim C2 (counterexample): `append(trace, "")` does not return every trace
unchanged — on the trace `" a"` (leading whitespace) the code returns `"a"`. -/
theorem c2_counterexample :
    appendTrace (bytes " a") [] ≠ bytes " a" ∧
      appendTrace (bytes " a") [] = bytes "a" := by
  decide

/-- Claim C2 (amended): appending an empty relay ID returns the trace with
surrounding whitespace trimmed; in particular any trace without leading or
trailing whitespace is returned exactly unchanged. -/
theorem c2_append_empty_id (t : Str) :
    appendTrace t [] = trimSpace t ∧ (trimSpace t = t → appendTrace t [] = t) := by
  constructor
  · rfl
  · intro h
    calc appendTrace t [] = trimSpace t := rfl
      _ = t := h

/-- Claim C2 witness: the amended statement evaluated at the concrete trace
`"a,b"`, which carries no surrounding whitespace. -/
theorem c2_append_empty_id_witness :
    appendTrace (bytes "a,b") [] = bytes "a,b" :=
  (c2_append_empty_id (bytes "a,b")).2 (by decide)

/-- Claim C3 (counterexample): for the non-empty (whitespace-only) relay ID `" "`
the code returns the trace `"a"` unchanged while the split/trim/append/rejoin
algorithm of the claim would produce `"a,"`. -/
theorem c3_counterexample :
    (bytes " " ≠ ([] : Str)) ∧
      appendTrace (bytes "a") (bytes " ") = bytes "a" ∧
      specAppendTrace (bytes "a") (bytes " ") = bytes "a," ∧
      appendTrace (bytes "a") (bytes " ") ≠ specAppendTrace (bytes "a") (bytes " ") := by
  decide

/-- Claim C3 (amended): for every trace and every relay ID that is non-empty
after trimming, `appendTrace` computes exactly the claim's algorithm: split the
trace on commas, trim each segment and drop empty ones, append the trimmed relay
ID, rejoin with commas (empty trace yielding just the trimmed relay ID); in
particular `append(append("", "a"), "b") = "a,b"`. -/
theorem c3_append_spec :
    (∀ t id : Str, trimSpace id ≠ [] → appendTrace t id = specAppendTrace t id) ∧
      appendTrace (appendTrace [] (bytes "a")) (bytes "b") = bytes "a,b" := by
  constructor
  · intro t id h
    have hid : (trimSpace id == []) = false := by
      simpa using h
    by_cases he : trimSpace t = []
    · have hall := (trimSpace_eq_nil_iff t).mp he
      have hfree : commaB ∉ t := by
        intro hm
        have := hall commaB hm
        rw [isSpaceB_comma] at this
        exact Bool.false_ne_true this
      have hsplit : splitOnB commaB t = [t] := splitOnB_eq_single commaB t hfree
      simp only [appendTrace, specAppendTrace, hid, Bool.false_eq_true, if_false,
        he, hsplit, List.map_cons, List.map_nil, List.filter]
      rfl
    · have he2 : (trimSpace t == []) = false := by simpa using he
      simp only [appendTrace, specAppendTrace, hid, Bool.false_eq_true, if_false, he2]
      rw [map_trim_splitOnB_trimSpace t]
  · decide

/-- Claim C3 witness: the amended statement evaluated at the concrete trace
`" x ,, y "` and relay ID `"b"`. -/
theorem c3_append_spec_witness :
    appendTrace (bytes " x ,, y ") (bytes "b") =
      specAppendTrace (bytes " x ,, y ") (bytes "b") :=
  c3_append_spec.1 (bytes " x ,, y ") (bytes "b") (by decide)

/-! ### Claim C4: `traceContains` -/

/-- Claim C4: `traceContains(trace, relayID)` is true exactly when some
comma-separated segment of the trace trims to the trimmed relay ID, an empty or
whitespace-only relay ID always yields false, and in particular
`contains("a,b,c", "b") = true` and `contains("a,b,c", "") = false`. -/
theorem c4_traceContains :
    (∀ t id : Str, traceContains t id = true ↔
        (trimSpace id ≠ [] ∧ ∃ p ∈ splitOnB commaB t, trimSpace p = trimSpace id)) ∧
      (∀ t id : Str, trimSpace id = [] → traceContains t id = false) ∧
      traceContains (bytes "a,b,c") (bytes "b") = true ∧
      traceContains (bytes "a,b,c") [] = false := by
  refine ⟨?_, ?_, by decide, by decide⟩
  · intro t id
    by_cases h : trimSpace id = []
    · simp [traceContains, h]
    · have h2 : (trimSpace id == []) = false := by simpa using h
      simp [traceContains, h2, h, List.any_eq_true, beq_iff_eq]
  · intro t id h
    simp [traceContains, h]

/-- Claim C4 witness: the whitespace-only-ID clause at concrete inputs. -/
theorem c4_traceContains_witness :
    traceContains (bytes "a,,b") (bytes " ") = false :=
  c4_traceContains.2.1 (bytes "a,,b") (bytes " ") (by decide)

/-! ### Claim C5: loop-prevention round trip -/

/-- Claim C5: for every trace and every relay ID that is non-empty after
trimming and carries no comma, an ID appended by `appendTrace` is detected by
`traceContains` on receipt. -/
theorem c5_roundTrip (t id : Str) (h : trimSpace id ≠ []) (hc : commaB ∉ id) :
    traceContains (appendTrace t id) id = true := by
  have hid : (trimSpace id == []) = false := by simpa using h
  have htidfree : commaB ∉ trimSpace id := fun hm => hc (mem_trimSpace _ _ hm)
  have htid : trimSpace (trimSpace id) = trimSpace id := trimSpace_idem id
  by_cases he : trimSpace t = []
  · have happ : appendTrace t id = trimSpace id := by
      simp [appendTrace, hid, he]
    rw [happ]
    simp only [traceContains, hid, Bool.false_eq_true, if_false]
    rw [splitOnB_eq_single commaB _ htidfree]
    simp [htid]
  · have he2 : (trimSpace t == []) = false := by simpa using he
    have happ : appendTrace t id =
        joinB commaB
          ((((splitOnB commaB (trimSpace t)).map trimSpace).filter
              (fun p => !(p == []))) ++ [trimSpace id]) := by
      simp [appendTrace, hid, he2]
    rw [happ]
    simp only [traceContains, hid, Bool.false_eq_true, if_false]
    have hfreeL : ∀ x ∈ (((splitOnB commaB (trimSpace t)).map trimSpace).filter
        (fun p => !(p == []))) ++ [trimSpace id], commaB ∉ x := by
      intro x hx
      rcases List.mem_append.mp hx with hx | hx
      · have hx2 := List.mem_of_mem_filter hx
        obtain ⟨p, hp, rfl⟩ := List.mem_map.mp hx2
        exact fun hm => mem_splitOnB commaB (trimSpace t) p hp (mem_trimSpace _ _ hm)
      · rcases List.mem_singleton.mp hx with rfl
        exact htidfree
    rw [splitOnB_joinB commaB _ (by simp) hfreeL]
    apply List.any_eq_true.mpr
    refine ⟨trimSpace id, List.mem_append.mpr (Or.inr (by simp)), ?_⟩
    rw [htid]
    exact beq_self_eq_true _

/-- Claim C5 witness: the round trip at the concrete trace `"x"` and ID `"y"`. -/
theorem c5_roundTrip_witness :
    traceContains (appendTrace (bytes "x") (bytes "y")) (bytes "y") = true :=
  c5_roundTrip (bytes "x") (bytes "y") (by decide) (by decide)

/-! ### The relay entry-point handler (`handleRelay` in `internal/server`) -/

/-- ASCII fragment of Go `strings.ToUpper` (all method strings handled by the
program are ASCII). -/
def goToUpper (b : Nat) : Nat :=
  if 97 ≤ b ∧ b ≤ 122 then b - 32 else b

/-- ASCII fragment of Go `strings.ToLower`. -/
def goToLower (b : Nat) : Nat :=
  if 65 ≤ b ∧ b ≤ 90 then b + 32 else b

/-- Go `strings.ToUpper` on a byte string (ASCII fragment). -/
def toUpperStr (s : Str) : Str := s.map goToUpper

/-- `DestinationConfig` from `internal/config`. -/
structure DestinationConfig where
  url : Str
  method : Str
  headers : List (Str × Str)
  description : Str
deriving DecidableEq

/-- `ResolvedRelay` from `internal/config`. -/
structure ResolvedRelay where
  id : Str
  name : Str
  listenPath : Str
  methods : List Str
  destinations : List DestinationConfig
deriving DecidableEq

/-- `methodAllowed` from `internal/server`: an empty allowed set admits every
method, otherwise the trimmed, upper-cased inbound method must equal some
trimmed, upper-cased entry. -/
def methodAllowed (method : Str) (allowed : List Str) : Bool :=
  if allowed == [] then true
  else
    let m := toUpperStr (trimSpace method)
    allowed.any (fun a => m == toUpperStr (trimSpace a))

/-- One inbound HTTP request as `handleRelay` observes it: the method, the
`X-WebhookRelay-Trace` header value, and the body-read outcome (`none` models
an `io.ReadAll` failure). -/
structure InboundRequest where
  method : Str
  traceHeader : Str
  body : Option (List Nat)
deriving DecidableEq

/-- The arguments of the single `Forwarder.ForwardAsync` invocation made by
`handleRelay` when it forwards. -/
structure ForwardCall where
  reqID : Str
  relayName : Str
  relayID : Str
  body : List Nat
  destinations : List DestinationConfig
deriving DecidableEq

/-- What `handleRelay` writes back and does: the HTTP status, the
`X-Relay-Dropped` header value if set, the `X-Relay-Request-Id` header value if
set, whether the inbound body was fully consumed, and the forwarder invocation
if any (`none` means the forwarder was never invoked). -/
structure HandleResult where
  status : Nat
  droppedHeader : Option Str
  requestIdHeader : Option Str
  bodyConsumed : Bool
  forwardCall : Option ForwardCall
deriving DecidableEq

/-- `handleRelay` from `internal/server` (the per-relay entry point): method
check, loop check against the trace header, body capture, fire-and-forget
dispatch, immediate `202` response.  The request ID produced by `newRequestID`
(crypto randomness, external to the model) is passed in as `reqID`. -/
def handleRelay (relay : ResolvedRelay) (req : InboundRequest) (reqID : Str) :
    HandleResult :=
  if methodAllowed req.method relay.methods then
    if relay.id ≠ [] ∧ traceContains req.traceHeader relay.id = true then
      { status := 202, droppedHeader := some (bytes "self_loop"),
        requestIdHeader := none, bodyConsumed := true, forwardCall := none }
    else
      match req.body with
      | none =>
        { status := 400, droppedHeader := none, requestIdHeader := none,
          bodyConsumed := false, forwardCall := none }
      | some body =>
        { status := 202, droppedHeader := none, requestIdHeader := some reqID,
          bodyConsumed := true,
          forwardCall := some
            { reqID := reqID, relayName := relay.name, relayID := relay.id,
              body := body, destinations := relay.destinations } }
  else
    { status := 405, droppedHeader := none, requestIdHeader := none,
      bodyConsumed := false, forwardCall := none }

/-- A concrete relay used in counterexamples and witnesses: ID `"x"`, one
destination, `POST` only. -/
def demoRelay : ResolvedRelay :=
  { id := bytes "x", name := bytes "r", listenPath := bytes "/p",
    methods := [bytes "POST"],
    destinations := [⟨bytes "http://a", [], [], []⟩] }

/-! ### Claim C1: self-loop drop -/

/-- Claim C1 (counterexample): a request whose trace header already contains the
relay's ID but whose method is not allowed gets `405`, not the claimed `202`
with the drop header — the method check runs before the loop check. -/
theorem c1_counterexample :
    demoRelay.id ≠ [] ∧
      traceContains (bytes "x") demoRelay.id = true ∧
      (handleRelay demoRelay ⟨bytes "GET", bytes "x", some []⟩ []).status = 405 ∧
      ¬((handleRelay demoRelay ⟨bytes "GET", bytes "x", some []⟩ []).status = 202 ∧
        (handleRelay demoRelay ⟨bytes "GET", bytes "x", some []⟩ []).droppedHeader =
          some (bytes "self_loop")) := by
  decide

/-- Claim C1 (amended): for every inbound request whose method the relay allows,
if the relay has a non-empty ID and the trace header already contains that ID,
the handler responds `202` with `X-Relay-Dropped: self_loop`, consumes and
discards the body, and never invokes the forwarder. -/
theorem c1_selfLoopDrop (relay : ResolvedRelay) (req : InboundRequest)
    (reqID : Str) (hm : methodAllowed req.method relay.methods = true)
    (hid : relay.id ≠ []) (ht : traceContains req.traceHeader relay.id = true) :
    handleRelay relay req reqID =
      { status := 202, droppedHeader := some (bytes "self_loop"),
        requestIdHeader := none, bodyConsumed := true, forwardCall := none } := by
  simp [handleRelay, hm, hid, ht]

/-- Claim C1 witness: the self-loop drop at a concrete allowed request. -/
theorem c1_selfLoopDrop_witness :
    handleRelay demoRelay ⟨bytes "POST", bytes "a,x", some [1]⟩ (bytes "q") =
      { status := 202, droppedHeader := some (bytes "self_loop"),
        requestIdHeader := none, bodyConsumed := true, forwardCall := none } :=
  c1_selfLoopDrop demoRelay _ _ (by decide) (by decide) (by decide)

/-! ### Claim C6: method check -/

/-- Claim C6: for a relay with a non-empty allowed-method set, a request whose
trimmed, upper-cased method matches no entry yields `405` and no forwarder
invocation; an empty allowed set admits every method. -/
theorem c6_methodCheck :
    (∀ (relay : ResolvedRelay) (req : InboundRequest) (reqID : Str),
        relay.methods ≠ [] →
        (∀ a ∈ relay.methods,
          toUpperStr (trimSpace req.method) ≠ toUpperStr (trimSpace a)) →
        (handleRelay relay req reqID).status = 405 ∧
          (handleRelay relay req reqID).forwardCall = none) ∧
      (∀ m : Str, methodAllowed m [] = true) := by
  constructor
  · intro relay req reqID hne hno
    have h0 : (relay.methods == []) = false := by simpa using hne
    have hAny : relay.methods.any
        (fun a => toUpperStr (trimSpace req.method) == toUpperStr (trimSpace a)) =
          false := by
      cases hcase : relay.methods.any
          (fun a => toUpperStr (trimSpace req.method) == toUpperStr (trimSpace a)) with
      | false => rfl
      | true =>
        obtain ⟨a, ha, hbeq⟩ := List.any_eq_true.mp hcase
        exact absurd (by simpa using hbeq) (hno a ha)
    have hma : methodAllowed req.method relay.methods = false := by
      simp [methodAllowed, h0, hAny]
    simp [handleRelay, hma]
  · intro m
    rfl

/-- Claim C6 witness: a `GET` against the `POST`-only concrete relay. -/
theorem c6_methodCheck_witness :
    (handleRelay demoRelay ⟨bytes "GET", [], some []⟩ []).status = 405 ∧
      (handleRelay demoRelay ⟨bytes "GET", [], some []⟩ []).forwardCall = none :=
  c6_methodCheck.1 demoRelay ⟨bytes "GET", [], some []⟩ [] (by decide) (by decide)

/-! ### Claim C8: response headers -/

/-- Claim C8 (counterexample): an accepted self-loop drop (status `202`, drop
header set) carries no `X-Relay-Request-Id` header at all — the handler
returns before the request ID is generated or written. -/
theorem c8_counterexample :
    (handleRelay demoRelay ⟨bytes "POST", bytes "x", some []⟩ (bytes "q")).status = 202 ∧
      (handleRelay demoRelay ⟨bytes "POST", bytes "x", some []⟩ (bytes "q")).droppedHeader =
        some (bytes "self_loop") ∧
      (handleRelay demoRelay ⟨bytes "POST", bytes "x", some []⟩ (bytes "q")).requestIdHeader =
        none := by
  decide

/-- Claim C8 (amended): the drop-reason header is present exactly on accepted
self-loop drops (which are `202`, carry no correlation ID header, and make no
forwarder invocation), while the correlation ID header is present exactly on
accepted calls that were actually dispatched. -/
theorem c8_responseHeaders (relay : ResolvedRelay) (req : InboundRequest)
    (reqID : Str) :
    ((handleRelay relay req reqID).droppedHeader = some (bytes "self_loop") ↔
        (methodAllowed req.method relay.methods = true ∧ relay.id ≠ [] ∧
          traceContains req.traceHeader relay.id = true)) ∧
      ((handleRelay relay req reqID).requestIdHeader = some reqID ↔
        (methodAllowed req.method relay.methods = true ∧
          ¬(relay.id ≠ [] ∧ traceContains req.traceHeader relay.id = true) ∧
          req.body ≠ none)) ∧
      ((handleRelay relay req reqID).droppedHeader = some (bytes "self_loop") →
        (handleRelay relay req reqID).status = 202 ∧
          (handleRelay relay req reqID).requestIdHeader = none ∧
          (handleRelay relay req reqID).forwardCall = none) := by
  by_cases hm : methodAllowed req.method relay.methods = true
  · by_cases hl : relay.id ≠ [] ∧ traceContains req.traceHeader relay.id = true
    · simp [handleRelay, hm, hl]
    · cases hb : req.body with
      | none => simp [handleRelay, hm, hl, hb]
      | some body => simp [handleRelay, hm, hl, hb]
  · have hm2 : methodAllowed req.method relay.methods = false := by
      simpa using hm
    simp [handleRelay, hm2]

/-- Claim C8 witness: the accepted-and-dispatched clause at a concrete request:
the correlation ID header carries the generated request ID. -/
theorem c8_responseHeaders_witness :
    (handleRelay demoRelay ⟨bytes "POST", [], some [7]⟩ (bytes "q")).requestIdHeader =
      some (bytes "q") :=
  (c8_responseHeaders demoRelay ⟨bytes "POST", [], some [7]⟩ (bytes "q")).2.1.mpr
    (by decide)

/-! ### Header model (`net/http.Header` and the sanitizer in `internal/relay`) -/

/-- Go `textproto` valid header-field bytes (HTTP token characters). -/
def isTokenByte (b : Nat) : Bool :=
  (48 ≤ b && b ≤ 57) || (65 ≤ b && b ≤ 90) || (97 ≤ b && b ≤ 122) ||
    b == 33 || b == 35 || b == 36 || b == 37 || b == 38 || b == 39 ||
    b == 42 || b == 43 || b == 45 || b == 46 || b == 94 || b == 95 ||
    b == 96 || b == 124 || b == 126

/-- The canonicalization loop of Go `textproto.CanonicalMIMEHeaderKey`: upper-case
a letter at the start of a word (after a `-`, byte 45), lower-case elsewhere. -/
def canonAux : Bool → Str → Str
  | _, [] => []
  | upper, b :: rest =>
    let b2 := if upper then goToUpper b else goToLower b
    b2 :: canonAux (b2 == 45) rest

/-- Go `http.CanonicalHeaderKey`: canonicalize a valid key, return an invalid
key unchanged. -/
def canonicalHeaderKey (s : Str) : Str :=
  if s.all isTokenByte then canonAux true s else s

/-- A Go `http.Header`: a finite map from canonical keys to value lists,
modelled as an association list keyed by the stored (canonical) names. -/
abbrev Header := List (Str × List Str)

/-- The stored header names of a `Header`. -/
def headerKeys (h : Header) : List Str := h.map Prod.fst

/-- Raw association-list lookup by stored key. -/
def lookupH : Header → Str → Option (List Str)
  | [], _ => none
  | (k, vs) :: rest, key => if k == key then some vs else lookupH rest key

/-- Insertion step of `Header.Add` for an already-canonical key. -/
def addAux : Header → Str → Str → Header
  | [], ck, v => [(ck, [v])]
  | (k, vs) :: rest, ck, v =>
    if k == ck then (k, vs ++ [v]) :: rest else (k, vs) :: addAux rest ck v

/-- Go `http.Header.Add`. -/
def headerAdd (h : Header) (k v : Str) : Header :=
  addAux h (canonicalHeaderKey k) v

/-- Replacement step of `Header.Set` for an already-canonical key. -/
def setAux : Header → Str → Str → Header
  | [], ck, v => [(ck, [v])]
  | (k, vs) :: rest, ck, v =>
    if k == ck then (k, [v]) :: rest else (k, vs) :: setAux rest ck v

/-- Go `http.Header.Set`. -/
def headerSet (h : Header) (k v : Str) : Header :=
  setAux h (canonicalHeaderKey k) v

/-- Go `http.Header.Del`. -/
def headerDel (h : Header) (k : Str) : Header :=
  h.filter (fun kv => !(kv.1 == canonicalHeaderKey k))

/-- Go `http.Header.Get`: the first value for the canonical key, or `""`. -/
def headerGet (h : Header) (k : Str) : Str :=
  match lookupH h (canonicalHeaderKey k) with
  | some (v :: _) => v
  | _ => []

/-- The nine hop-by-hop header names of `isHopByHopHeader` in `internal/relay`. -/
def hopByHopNames : List Str :=
  [bytes "Connection", bytes "Proxy-Connection", bytes "Keep-Alive",
    bytes "Proxy-Authenticate", bytes "Proxy-Authorization", bytes "Te",
    bytes "Trailer", bytes "Transfer-Encoding", bytes "Upgrade"]

/-- `isHopByHopHeader` from `internal/relay`: switch on the canonical key. -/
def isHopByHopHeader (k : Str) : Bool :=
  hopByHopNames.any (fun n => canonicalHeaderKey k == n)

/-- `copyHeaders` from `internal/relay`: copy all source headers except
hop-by-hop ones into `dst`. -/
def copyHeaders (dst : Header) (src : Header) : Header :=
  src.foldl
    (fun d kv =>
      if isHopByHopHeader (canonicalHeaderKey kv.1) then d
      else kv.2.foldl (fun d2 v => headerAdd d2 kv.1 v) d)
    dst

/-- ASCII fragment of Go `strings.EqualFold` (all header names handled here are
ASCII). -/
def eqFold (a b : Str) : Bool :=
  a.map goToLower == b.map goToLower

/-- `applyHeaderOverrides` from `internal/relay`: each destination override
replaces the same-named header, except overrides named `host` (case-insensitive),
which are skipped.  The Go `map` is modelled as an association list. -/
def applyHeaderOverrides (h : Header) (overrides : List (Str × Str)) : Header :=
  overrides.foldl
    (fun h2 kv =>
      if eqFold kv.1 (bytes "host") then h2 else headerSet h2 kv.1 kv.2)
    h

/-- `HeaderTrace` from `internal/relay`. -/
def headerTrace : Str := bytes "X-WebhookRelay-Trace"

/-- `HeaderRequestID` from `internal/relay`. -/
def headerRequestID : Str := bytes "X-WebhookRelay-Request-Id"

/-- The header/host construction phase of `forwardOne` in `internal/relay`
(the statements between request creation and `client.Do`): copy inbound headers,
clear the host (`outReq.Host = ""` plus `Del("Host")`), apply destination
overrides, append the trace entry when the trimmed relay ID is non-empty, and
set the request-ID header.  Returns the outbound headers and the outbound host. -/
def buildOutbound (inboundH : Header) (overrides : List (Str × Str))
    (relayID reqID : Str) : Header × Str :=
  let h := copyHeaders [] inboundH
  let host : Str := []
  let h := headerDel h (bytes "Host")
  let h := applyHeaderOverrides h overrides
  let h :=
    if trimSpace relayID ≠ [] then
      headerSet h headerTrace
        (appendTrace (headerGet h headerTrace) (trimSpace relayID))
    else h
  let h := headerSet h headerRequestID reqID
  (h, host)

/-! ### Lemmas about the header model -/

theorem mem_keys_addAux (h : Header) (ck v : Str) (K : Str)
    (hK : K ∈ headerKeys (addAux h ck v)) : K ∈ headerKeys h ∨ K = ck := by
  induction h with
  | nil =>
    simp [addAux, headerKeys] at hK
    exact Or.inr hK
  | cons kv rest ih =>
    by_cases he : kv.1 == ck
    · rw [show addAux (kv :: rest) ck v = (kv.1, kv.2 ++ [v]) :: rest by
        cases kv; simp [addAux, he]] at hK
      simp only [headerKeys, List.map_cons] at hK ⊢
      exact Or.inl hK
    · rw [show addAux (kv :: rest) ck v = kv :: addAux rest ck v by
        cases kv; simp [addAux, he]] at hK
      simp only [headerKeys, List.map_cons, List.mem_cons] at hK ⊢
      rcases hK with hK | hK
      · exact Or.inl (Or.inl hK)
      · rcases ih hK with h1 | h1
        · exact Or.inl (Or.inr h1)
        · exact Or.inr h1

theorem mem_keys_setAux (h : Header) (ck v : Str) (K : Str)
    (hK : K ∈ headerKeys (setAux h ck v)) : K ∈ headerKeys h ∨ K = ck := by
  induction h with
  | nil =>
    simp [setAux, headerKeys] at hK
    exact Or.inr hK
  | cons kv rest ih =>
    by_cases he : kv.1 == ck
    · rw [show setAux (kv :: rest) ck v = (kv.1, [v]) :: rest by
        cases kv; simp [setAux, he]] at hK
      simp only [headerKeys, List.map_cons] at hK ⊢
      exact Or.inl hK
    · rw [show setAux (kv :: rest) ck v = kv :: setAux rest ck v by
        cases kv; simp [setAux, he]] at hK
      simp only [headerKeys, List.map_cons, List.mem_cons] at hK ⊢
      rcases hK with hK | hK
      · exact Or.inl (Or.inl hK)
      · rcases ih hK with h1 | h1
        · exact Or.inl (Or.inr h1)
        · exact Or.inr h1

theorem copyHeaders_preserves (src : Header) (dst : Header)
    (hdst : ∀ K ∈ headerKeys dst, isHopByHopHeader K = false) :
    ∀ K ∈ headerKeys (copyHeaders dst src), isHopByHopHeader K = false := by
  induction src generalizing dst with
  | nil => exact hdst
  | cons kv rest ih =>
    by_cases hhop : isHopByHopHeader (canonicalHeaderKey kv.1) = true
    · have : copyHeaders dst (kv :: rest) = copyHeaders dst rest := by
        simp [copyHeaders, hhop]
      rw [this]
      exact ih dst hdst
    · have hhop2 : isHopByHopHeader (canonicalHeaderKey kv.1) = false := by
        simpa using hhop
      have hstep : copyHeaders dst (kv :: rest) =
          copyHeaders (kv.2.foldl (fun d2 v => headerAdd d2 kv.1 v) dst) rest := by
        simp [copyHeaders, hhop2]
      rw [hstep]
      apply ih
      clear hstep
      induction kv.2 generalizing dst with
      | nil => exact hdst
      | cons v vs ihv =>
        simp only [List.foldl_cons]
        apply ihv
        intro K hK
        rcases mem_keys_addAux dst (canonicalHeaderKey kv.1) v K hK with h1 | h1
        · exact hdst K h1
        · rw [h1]
          exact hhop2

theorem lookup_setAux_self (h : Header) (ck v : Str) :
    lookupH (setAux h ck v) ck = some [v] := by
  induction h with
  | nil => simp [setAux, lookupH]
  | cons kv rest ih =>
    by_cases he : kv.1 == ck
    · rw [show setAux (kv :: rest) ck v = (kv.1, [v]) :: rest by
        cases kv; simp [setAux, he]]
      simp [lookupH, he]
    · rw [show setAux (kv :: rest) ck v = kv :: setAux rest ck v by
        cases kv; simp [setAux, he]]
      cases kv with
      | mk k vs =>
        simp only at he
        simp [lookupH, he, ih]

theorem lookup_setAux_other (h : Header) (ck v K : Str) (hne : K ≠ ck) :
    lookupH (setAux h ck v) K = lookupH h K := by
  induction h with
  | nil =>
    have : (ck == K) = false := by
      simp [BEq.comm]
      exact fun h => hne h.symm
    simp [setAux, lookupH, this]
  | cons kv rest ih =>
    by_cases he : kv.1 == ck
    · rw [show setAux (kv :: rest) ck v = (kv.1, [v]) :: rest by
        cases kv; simp [setAux, he]]
      have hkK : (kv.1 == K) = false := by
        have : kv.1 = ck := by simpa using he
        simp [this]
        exact fun hx => hne hx.symm
      simp [lookupH, hkK]
    · rw [show setAux (kv :: rest) ck v = kv :: setAux rest ck v by
        cases kv; simp [setAux, he]]
      cases hkK : kv.1 == K
      · simp [lookupH, hkK, ih]
      · simp [lookupH, hkK]

theorem goToLower_goToUpper (b : Nat) : goToLower (goToUpper b) = goToLower b := by
  simp only [goToUpper, goToLower]
  split_ifs <;> omega

theorem goToLower_goToLower (b : Nat) : goToLower (goToLower b) = goToLower b := by
  simp only [goToLower]
  split_ifs <;> omega

theorem canonAux_map_lower (s : Str) (u : Bool) :
    (canonAux u s).map goToLower = s.map goToLower := by
  induction s generalizing u with
  | nil => rfl
  | cons b rest ih =>
    simp only [canonAux, List.map_cons, ih]
    congr 1
    cases u with
    | true => simp [goToLower_goToUpper]
    | false => simp [goToLower_goToLower]

theorem canonicalHeaderKey_eq_host (k : Str)
    (h : canonicalHeaderKey k = bytes "Host") : eqFold k (bytes "host") = true := by
  unfold canonicalHeaderKey at h
  by_cases hv : k.all isTokenByte
  · rw [if_pos hv] at h
    have h2 := congrArg (List.map goToLower) h
    rw [canonAux_map_lower] at h2
    unfold eqFold
    rw [h2]
    decide
  · rw [if_neg hv] at h
    subst h
    decide

theorem keys_headerDel_subset (h : Header) (k : Str) (K : Str)
    (hK : K ∈ headerKeys (headerDel h k)) :
    K ∈ headerKeys h ∧ K ≠ canonicalHeaderKey k := by
  obtain ⟨kv, hkv, hfst⟩ := List.mem_map.mp hK
  have hmem := List.mem_of_mem_filter hkv
  have hpred := List.of_mem_filter hkv
  constructor
  · exact List.mem_map.mpr ⟨kv, hmem, hfst⟩
  · intro hEq
    rw [← hfst] at hEq
    simp [hEq] at hpred

theorem applyOverrides_cons (h : Header) (kv : Str × Str)
    (rest : List (Str × Str)) :
    applyHeaderOverrides h (kv :: rest) =
      applyHeaderOverrides
        (if eqFold kv.1 (bytes "host") then h else headerSet h kv.1 kv.2) rest := by
  simp only [applyHeaderOverrides, List.foldl_cons]

theorem applyOverrides_keys (Q : Str → Prop) (ovs : List (Str × Str)) :
    ∀ h : Header, (∀ K ∈ headerKeys h, Q K) →
      (∀ kv ∈ ovs, eqFold kv.1 (bytes "host") = false → Q (canonicalHeaderKey kv.1)) →
      ∀ K ∈ headerKeys (applyHeaderOverrides h ovs), Q K := by
  induction ovs with
  | nil => exact fun h hh _ => hh
  | cons kv rest ih =>
    intro h hh hov
    rw [applyOverrides_cons]
    by_cases hf : eqFold kv.1 (bytes "host") = true
    · rw [if_pos hf]
      exact ih h hh (fun kv2 h2 => hov kv2 (List.mem_cons.mpr (Or.inr h2)))
    · have hf2 : eqFold kv.1 (bytes "host") = false := by simpa using hf
      rw [if_neg (by simp [hf2])]
      apply ih
      · intro K hK
        rcases mem_keys_setAux h (canonicalHeaderKey kv.1) kv.2 K hK with h1 | h1
        · exact hh K h1
        · rw [h1]
          exact hov kv (List.mem_cons.mpr (Or.inl rfl)) hf2
      · exact fun kv2 h2 => hov kv2 (List.mem_cons.mpr (Or.inr h2))

theorem applyOverrides_lookup_preserved (ovs : List (Str × Str)) (K : Str) :
    ∀ h : Header, (∀ kv ∈ ovs, canonicalHeaderKey kv.1 ≠ K) →
      lookupH (applyHeaderOverrides h ovs) K = lookupH h K := by
  induction ovs with
  | nil => exact fun h _ => rfl
  | cons kv rest ih =>
    intro h hno
    rw [applyOverrides_cons]
    by_cases hf : eqFold kv.1 (bytes "host") = true
    · rw [if_pos hf]
      exact ih h (fun kv2 h2 => hno kv2 (List.mem_cons.mpr (Or.inr h2)))
    · rw [if_neg (by simpa using hf)]
      rw [ih _ (fun kv2 h2 => hno kv2 (List.mem_cons.mpr (Or.inr h2)))]
      exact lookup_setAux_other h (canonicalHeaderKey kv.1) kv.2 K
        (fun hEq => hno kv (List.mem_cons.mpr (Or.inl rfl)) hEq.symm)

theorem applyOverrides_replaces (ovs : List (Str × Str)) :
    ∀ h : Header, (ovs.map (fun kv => canonicalHeaderKey kv.1)).Nodup →
      ∀ kv ∈ ovs, eqFold kv.1 (bytes "host") = false →
        lookupH (applyHeaderOverrides h ovs) (canonicalHeaderKey kv.1) = some [kv.2] := by
  induction ovs with
  | nil =>
    intro h _ kv hkv
    exact absurd hkv (List.not_mem_nil kv)
  | cons kv0 rest ih =>
    intro h hnd kv hkv hfold
    rw [applyOverrides_cons]
    rcases List.mem_cons.mp hkv with rfl | hmem
    · rw [if_neg (by simp [hfold])]
      rw [List.map_cons, List.nodup_cons] at hnd
      have hno : ∀ kv2 ∈ rest, canonicalHeaderKey kv2.1 ≠ canonicalHeaderKey kv.1 := by
        intro kv2 h2 hEq
        exact hnd.1 (List.mem_map.mpr ⟨kv2, h2, hEq⟩)
      rw [applyOverrides_lookup_preserved rest _ _ hno]
      exact lookup_setAux_self h (canonicalHeaderKey kv.1) kv.2
    · have hnd2 : (rest.map (fun kv => canonicalHeaderKey kv.1)).Nodup := by
        rw [List.map_cons, List.nodup_cons] at hnd
        exact hnd.2
      by_cases hf : eqFold kv0.1 (bytes "host") = true
      · rw [if_pos hf]
        exact ih h hnd2 kv hmem hfold
      · rw [if_neg (by simpa using hf)]
        exact ih _ hnd2 kv hmem hfold

theorem mem_keys_headerSet (h : Header) (k v K : Str)
    (hK : K ∈ headerKeys (headerSet h k v)) :
    K ∈ headerKeys h ∨ K = canonicalHeaderKey k :=
  mem_keys_setAux h (canonicalHeaderKey k) v K hK

theorem buildOutbound_fst (inboundH : Header) (ovs : List (Str × Str))
    (relayID reqID : Str) :
    (buildOutbound inboundH ovs relayID reqID).1 =
      headerSet
        (if trimSpace relayID ≠ [] then
          headerSet
            (applyHeaderOverrides (headerDel (copyHeaders [] inboundH) (bytes "Host")) ovs)
            headerTrace
            (appendTrace
              (headerGet
                (applyHeaderOverrides (headerDel (copyHeaders [] inboundH) (bytes "Host")) ovs)
                headerTrace)
              (trimSpace relayID))
        else applyHeaderOverrides (headerDel (copyHeaders [] inboundH) (bytes "Host")) ovs)
        headerRequestID reqID := rfl

theorem buildOutbound_no_hop (inboundH : Header) (ovs : List (Str × Str))
    (relayID reqID : Str)
    (hov : ∀ kv ∈ ovs, isHopByHopHeader (canonicalHeaderKey kv.1) = false) :
    ∀ K ∈ headerKeys (buildOutbound inboundH ovs relayID reqID).1,
      isHopByHopHeader K = false := by
  intro K hK
  rw [buildOutbound_fst] at hK
  have base : ∀ K2 ∈ headerKeys
      (applyHeaderOverrides (headerDel (copyHeaders [] inboundH) (bytes "Host")) ovs),
      isHopByHopHeader K2 = false := by
    apply applyOverrides_keys
    · intro K2 hK2
      have hsub := keys_headerDel_subset _ _ _ hK2
      exact copyHeaders_preserves inboundH []
        (by intro K3 hK3; simp [headerKeys] at hK3) K2 hsub.1
    · intro kv hkv _
      exact hov kv hkv
  rcases mem_keys_headerSet _ _ _ _ hK with hK1 | hK1
  · by_cases hrid : trimSpace relayID ≠ []
    · rw [if_pos hrid] at hK1
      rcases mem_keys_headerSet _ _ _ _ hK1 with hK2 | hK2
      · exact base K hK2
      · rw [hK2]
        decide
    · rw [if_neg hrid] at hK1
      exact base K hK1
  · rw [hK1]
    decide

theorem buildOutbound_host (inboundH : Header) (ovs : List (Str × Str))
    (relayID reqID : Str) :
    (buildOutbound inboundH ovs relayID reqID).2 = [] ∧
      bytes "Host" ∉ headerKeys (buildOutbound inboundH ovs relayID reqID).1 := by
  refine ⟨rfl, ?_⟩
  intro hK
  rw [buildOutbound_fst] at hK
  have hbase : bytes "Host" ∉ headerKeys
      (applyHeaderOverrides (headerDel (copyHeaders [] inboundH) (bytes "Host")) ovs) := by
    intro hmem
    have hfinal := applyOverrides_keys (fun K => K ≠ bytes "Host") ovs _
      (by
        intro K2 hK2
        have hsub := keys_headerDel_subset _ _ _ hK2
        intro hEq
        exact hsub.2 (hEq.trans (by decide)))
      (by
        intro kv _ hfold hEq
        have := canonicalHeaderKey_eq_host kv.1 hEq
        rw [hfold] at this
        exact Bool.false_ne_true this)
      (bytes "Host") hmem
    exact hfinal rfl
  rcases mem_keys_headerSet _ _ _ _ hK with hK1 | hK1
  · by_cases hrid : trimSpace relayID ≠ []
    · rw [if_pos hrid] at hK1
      rcases mem_keys_headerSet _ _ _ _ hK1 with hK2 | hK2
      · exact hbase hK2
      · exact absurd hK2 (by decide)
    · rw [if_neg hrid] at hK1
      exact hbase hK1
  · exact absurd hK1 (by decide)

/-! ### Claim C7: header sanitization -/

/-- Claim C7: (i) copying inbound headers drops every name that canonicalizes to
a hop-by-hop header; (ii) the full outbound header construction contains no
hop-by-hop name provided the destination overrides name none; (iii) the outbound
host is cleared and no `Host` header survives, regardless of overrides; (iv) a
non-`host` override replaces the same-named header with exactly its value; (v) an
override named `host` in any casing is skipped entirely. -/
theorem c7_headerSanitization :
    (∀ src : Header, ∀ K ∈ headerKeys (copyHeaders [] src),
        isHopByHopHeader K = false) ∧
      (∀ (inboundH : Header) (ovs : List (Str × Str)) (relayID reqID : Str),
        (∀ kv ∈ ovs, isHopByHopHeader (canonicalHeaderKey kv.1) = false) →
        ∀ K ∈ headerKeys (buildOutbound inboundH ovs relayID reqID).1,
          isHopByHopHeader K = false) ∧
      (∀ (inboundH : Header) (ovs : List (Str × Str)) (relayID reqID : Str),
        (buildOutbound inboundH ovs relayID reqID).2 = [] ∧
          bytes "Host" ∉ headerKeys (buildOutbound inboundH ovs relayID reqID).1) ∧
      (∀ (h : Header) (ovs : List (Str × Str)),
        (ovs.map (fun kv => canonicalHeaderKey kv.1)).Nodup →
        ∀ kv ∈ ovs, eqFold kv.1 (bytes "host") = false →
          lookupH (applyHeaderOverrides h ovs) (canonicalHeaderKey kv.1) =
            some [kv.2]) ∧
      (∀ (h : Header) (k v : Str) (ovs : List (Str × Str)),
        eqFold k (bytes "host") = true →
        applyHeaderOverrides h ((k, v) :: ovs) = applyHeaderOverrides h ovs) := by
  refine ⟨?_, buildOutbound_no_hop, buildOutbound_host,
    fun h ovs hnd => applyOverrides_replaces ovs h hnd, ?_⟩
  · intro src
    exact copyHeaders_preserves src [] (by intro K hK; simp [headerKeys] at hK)
  · intro h k v ovs hk
    rw [applyOverrides_cons, if_pos hk]

/-- Claim C7 witness: a concrete non-`host` override replaces the header value. -/
theorem c7_headerSanitization_witness :
    lookupH (applyHeaderOverrides [] [(bytes "X-Api-Key", bytes "k1")])
      (canonicalHeaderKey (bytes "X-Api-Key")) = some [bytes "k1"] :=
  c7_headerSanitization.2.2.2.1 [] [(bytes "X-Api-Key", bytes "k1")] (by decide)
    (bytes "X-Api-Key", bytes "k1") (by decide) (by decide)

/-! ### Path resolution (`path.Clean`, `joinPaths`, `normalizeBasePath`) -/

/-- The slash byte. -/
def slashB : Nat := 47

/-- The dot byte. -/
def dotB : Nat := 46

/-- The segment-stack processing of Go `path.Clean`: skip empty and `.`
segments; on `..` pop the last stacked segment when one is poppable (for a
non-rooted path a leading run of `..` is a barrier, for a rooted path a `..`
at the root is dropped); otherwise push the segment. -/
def cleanSegs (rooted : Bool) : List Str → List Str → List Str
  | [], stack => stack
  | s :: rest, stack =>
    if s = [] ∨ s = [dotB] then cleanSegs rooted rest stack
    else if s = [dotB, dotB] then
      if stack ≠ [] ∧ stack.getLast? ≠ some [dotB, dotB] then
        cleanSegs rooted rest stack.dropLast
      else if rooted then cleanSegs rooted rest stack
      else cleanSegs rooted rest (stack ++ [[dotB, dotB]])
    else cleanSegs rooted rest (stack ++ [s])

/-- Go `path.Clean` (lexical cleaning), in segment-stack form: a rooted result
is the slash followed by the stacked segments joined with slashes, a non-rooted
result is the joined stack, and an empty outcome is `"."`. -/
def pathClean (p : Str) : Str :=
  if p = [] then [dotB]
  else if p.headD 0 = slashB then
    slashB :: joinB slashB (cleanSegs true (splitOnB slashB p) [])
  else if cleanSegs false (splitOnB slashB p) [] = [] then [dotB]
  else joinB slashB (cleanSegs false (splitOnB slashB p) [])

/-- The `strings.HasPrefix`/prepend idiom of `internal/config`: give a path a
leading slash if it lacks one. -/
def withSlash (q : Str) : Str :=
  if q.headD 0 = slashB then q else slashB :: q

/-- `normalizeBasePath` from `internal/config`: trim, map `""` and `"/"` to
`""`, ensure a leading slash, clean, map a bare `"/"` back to `""`, and strip
trailing slashes. -/
def normalizeBasePath (p : Str) : Str :=
  if trimSpace p = [] ∨ trimSpace p = [slashB] then []
  else if pathClean (withSlash (trimSpace p)) = [slashB] then []
  else
    ((pathClean (withSlash (trimSpace p))).reverse.dropWhile
      (fun x => x == slashB)).reverse

/-- `joinPaths` from `internal/config`: trim both parts, give the listen path a
leading slash, concatenate onto the base, and clean. -/
def joinPaths (basePath listenPath : Str) : Str :=
  if trimSpace basePath = [] then
    if trimSpace listenPath = [] then [slashB]
    else pathClean (withSlash (trimSpace listenPath))
  else if trimSpace listenPath = [] then pathClean (trimSpace basePath)
  else pathClean (trimSpace basePath ++ withSlash (trimSpace listenPath))

theorem getLastD_mem {α : Type} (l : List α) (d : α) (h : l ≠ []) :
    l.getLastD d ∈ l := by
  induction l generalizing d with
  | nil => exact absurd rfl h
  | cons a t ih =>
    cases t with
    | nil => simp [List.getLastD]
    | cons b s =>
      rw [List.getLastD_cons]
      exact List.mem_cons.mpr (Or.inr (ih a (by simp)))

theorem getLastD_irrelG {α : Type} (l : List α) (d e : α) (h : l ≠ []) :
    l.getLastD d = l.getLastD e := by
  induction l generalizing d e with
  | nil => exact absurd rfl h
  | cons a t ih =>
    cases t with
    | nil => rfl
    | cons b s => simp only [List.getLastD_cons]

theorem getLastD_append_right {α : Type} (u v : List α) (d : α) (hv : v ≠ []) :
    (u ++ v).getLastD d = v.getLastD d := by
  induction u generalizing d with
  | nil => rfl
  | cons a t ih =>
    rw [List.cons_append, List.getLastD_cons, ih a]
    exact getLastD_irrelG v a d hv

theorem joinB_ne_nil (b : Nat) (s0 : Str) (rest : List Str) (h0 : s0 ≠ []) :
    joinB b (s0 :: rest) ≠ [] := by
  cases rest with
  | nil => simpa [joinB] using h0
  | cons y t =>
    simp only [joinB]
    intro h
    rcases List.append_eq_nil.mp h with ⟨h1, _⟩
    exact h0 h1

theorem joinB_getLastD_ne (st : List Str) (hne : st ≠ [])
    (hgood : ∀ s ∈ st, s ≠ [] ∧ slashB ∉ s) :
    (joinB slashB st).getLastD slashB ≠ slashB := by
  induction st with
  | nil => exact absurd rfl hne
  | cons x rest ih =>
    cases rest with
    | nil =>
      have hx := hgood x (by simp)
      simp only [joinB]
      intro h
      exact hx.2 (h ▸ getLastD_mem x slashB hx.1)
    | cons y t =>
      simp only [joinB]
      have hns : (slashB :: joinB slashB (y :: t)) ≠ [] := by simp
      rw [getLastD_append_right x _ slashB hns, List.getLastD_cons]
      have hyne : joinB slashB (y :: t) ≠ [] :=
        joinB_ne_nil slashB y t (hgood y (by simp)).1
      have := ih (by simp) (fun s hs => hgood s (List.mem_cons.mpr (Or.inr hs)))
      rw [show joinB slashB (y :: t) = joinB slashB (y :: t) from rfl]
      exact this

/-- A segment that `path.Clean` stacks when rooted: non-empty, not `.`, not
`..`, and slash-free. -/
def goodSeg (s : Str) : Prop :=
  s ≠ [] ∧ s ≠ [dotB] ∧ s ≠ [dotB, dotB] ∧ slashB ∉ s

theorem cleanSegs_cons_skip (rooted : Bool) (s : Str) (rest stack : List Str)
    (h : s = [] ∨ s = [dotB]) :
    cleanSegs rooted (s :: rest) stack = cleanSegs rooted rest stack := by
  simp only [cleanSegs]
  rw [if_pos h]

theorem cleanSegs_cons_pop (rooted : Bool) (rest stack : List Str)
    (h3 : stack ≠ [] ∧ stack.getLast? ≠ some [dotB, dotB]) :
    cleanSegs rooted ([dotB, dotB] :: rest) stack =
      cleanSegs rooted rest stack.dropLast := by
  simp only [cleanSegs]
  rw [if_pos trivial, if_pos h3, if_neg (by decide)]

theorem cleanSegs_cons_root_dotdot (rest stack : List Str)
    (h3 : ¬(stack ≠ [] ∧ stack.getLast? ≠ some [dotB, dotB])) :
    cleanSegs true ([dotB, dotB] :: rest) stack = cleanSegs true rest stack := by
  simp only [cleanSegs]
  rw [if_pos trivial, if_neg h3, if_pos trivial, if_neg (by decide)]

theorem cleanSegs_cons_push (rooted : Bool) (s : Str) (rest stack : List Str)
    (h1 : ¬(s = [] ∨ s = [dotB])) (h2 : s ≠ [dotB, dotB]) :
    cleanSegs rooted (s :: rest) stack = cleanSegs rooted rest (stack ++ [s]) := by
  simp only [cleanSegs]
  rw [if_neg h1, if_neg h2]

theorem cleanSegs_rooted_inv (segs : List Str)
    (hsegs : ∀ s ∈ segs, slashB ∉ s) :
    ∀ stack, (∀ s ∈ stack, goodSeg s) → ∀ s ∈ cleanSegs true segs stack, goodSeg s := by
  induction segs with
  | nil =>
    intro stack hstack s hs
    exact hstack s hs
  | cons s0 rest ih =>
    intro stack hstack s hs
    have hrest : ∀ s ∈ rest, slashB ∉ s :=
      fun s hsr => hsegs s (List.mem_cons.mpr (Or.inr hsr))
    by_cases h1 : s0 = [] ∨ s0 = [dotB]
    · rw [cleanSegs_cons_skip true s0 rest stack h1] at hs
      exact ih hrest stack hstack s hs
    · by_cases h2 : s0 = [dotB, dotB]
      · subst h2
        by_cases h3 : stack ≠ [] ∧ stack.getLast? ≠ some [dotB, dotB]
        · rw [cleanSegs_cons_pop true rest stack h3] at hs
          exact ih hrest stack.dropLast
            (fun s2 hs2 => hstack s2 ((List.dropLast_sublist stack).subset hs2)) s hs
        · rw [cleanSegs_cons_root_dotdot rest stack h3] at hs
          exact ih hrest stack hstack s hs
      · rw [cleanSegs_cons_push true s0 rest stack h1 h2] at hs
        refine ih hrest (stack ++ [s0]) ?_ s hs
        intro s2 hs2
        rcases List.mem_append.mp hs2 with h4 | h4
        · exact hstack s2 h4
        · rcases List.mem_singleton.mp h4 with rfl
          push_neg at h1
          exact ⟨h1.1, h1.2, h2, hsegs s2 (by simp)⟩

theorem cleanSegs_generic_id (segs : List Str)
    (hsegs : ∀ s ∈ segs, goodSeg s) :
    ∀ stack, cleanSegs true segs stack = stack ++ segs := by
  induction segs with
  | nil =>
    intro stack
    simp [cleanSegs]
  | cons s0 rest ih =>
    intro stack
    have hg := hsegs s0 (by simp)
    rw [cleanSegs_cons_push true s0 rest stack (by
        push_neg
        exact ⟨hg.1, hg.2.1⟩) hg.2.2.1]
    rw [ih (fun s hs => hsegs s (List.mem_cons.mpr (Or.inr hs)))]
    simp

theorem pathClean_rooted (p : Str) (hne : p ≠ []) (hh : p.headD 0 = slashB) :
    pathClean p = slashB :: joinB slashB (cleanSegs true (splitOnB slashB p) []) := by
  unfold pathClean
  rw [if_neg hne, if_pos hh]

theorem pathClean_stack_good (p : Str) :
    ∀ s ∈ cleanSegs true (splitOnB slashB p) [], goodSeg s :=
  cleanSegs_rooted_inv _ (fun s hs => mem_splitOnB slashB p s hs) []
    (by intro s hs; exact absurd hs (List.not_mem_nil s))

theorem pathClean_rooted_idem (p : Str) (hne : p ≠ []) (hh : p.headD 0 = slashB) :
    pathClean (pathClean p) = pathClean p := by
  rw [pathClean_rooted p hne hh]
  have hgood := pathClean_stack_good p
  rcases hstc : cleanSegs true (splitOnB slashB p) [] with _ | ⟨s0, srest⟩
  · decide
  · rw [hstc] at hgood
    rw [pathClean_rooted _ (by simp) (by simp)]
    have hfree : ∀ x ∈ s0 :: srest, slashB ∉ x :=
      fun x hx => (hgood x hx).2.2.2
    have hsplit :
        splitOnB slashB (slashB :: joinB slashB (s0 :: srest)) =
          [] :: (s0 :: srest) := by
      rw [splitOnB_cons_sep, splitOnB_joinB slashB (s0 :: srest) (by simp) hfree]
    rw [hsplit, cleanSegs_cons_skip true [] _ [] (Or.inl rfl),
      cleanSegs_generic_id (s0 :: srest) (fun s hs => hgood s hs) []]
    rfl

theorem trimSpace_cons_not_space (a : Nat) (t : Str) (ha : isSpaceB a = false) :
    ∃ u, trimSpace (a :: t) = a :: u := by
  have h1 : trimLeft (a :: t) = a :: t := dropWhile_cons_of_neg _ _ _ ha
  have h2 : trimSpace (a :: t) = trimRight (a :: t) := by
    rw [trimSpace, h1]
  obtain ⟨w, _, hd⟩ := trimRight_decomp (a :: t)
  rcases hr : trimRight (a :: t) with _ | ⟨x, xs⟩
  · have := (trimRight_eq_nil_iff (a :: t)).mp hr a (by simp)
    rw [ha] at this
    exact absurd this Bool.false_ne_true
  · rw [hr] at hd
    have hax : a = x := by
      rw [List.cons_append] at hd
      exact (List.cons.injEq _ _ _ _ ▸ hd).1
    exact ⟨xs, by rw [h2, hr, hax]⟩

theorem isSpaceB_slash : isSpaceB slashB = false := by decide

theorem normalizeBasePath_shape (p : Str) :
    normalizeBasePath p = [] ∨ ∃ t, normalizeBasePath p = slashB :: t := by
  unfold normalizeBasePath
  by_cases h1 : trimSpace p = [] ∨ trimSpace p = [slashB]
  · rw [if_pos h1]
    exact Or.inl rfl
  · rw [if_neg h1]
    by_cases h2 : pathClean (withSlash (trimSpace p)) = [slashB]
    · rw [if_pos h2]
      exact Or.inl rfl
    · rw [if_neg h2]
      push_neg at h1
      have hp1 : trimSpace p ≠ [] := h1.1
      have hp2ne : withSlash (trimSpace p) ≠ [] := by
        unfold withSlash
        split_ifs with h
        · exact hp1
        · simp
      have hp2h : (withSlash (trimSpace p)).headD 0 = slashB := by
        unfold withSlash
        split_ifs with h
        · exact h
        · simp
      rw [pathClean_rooted _ hp2ne hp2h] at h2 ⊢
      rcases hstc : cleanSegs true (splitOnB slashB (withSlash (trimSpace p))) []
        with _ | ⟨s0, srest⟩
      · rw [hstc] at h2
        exact absurd rfl h2
      · have hgood := pathClean_stack_good (withSlash (trimSpace p))
        rw [hstc] at hgood
        have hlast : (slashB :: joinB slashB (s0 :: srest)).getLastD slashB ≠ slashB := by
          rw [List.getLastD_cons]
          exact joinB_getLastD_ne (s0 :: srest) (by simp)
            (fun s hs => ⟨(hgood s hs).1, (hgood s hs).2.2.2⟩)
        rcases hrev : (slashB :: joinB slashB (s0 :: srest)).reverse with _ | ⟨r0, rt⟩
        · exact absurd (List.reverse_eq_nil_iff.mp hrev) (by simp)
        · have hP3eq : slashB :: joinB slashB (s0 :: srest) = rt.reverse ++ [r0] := by
            have h5 := congrArg List.reverse hrev
            rw [List.reverse_reverse] at h5
            rw [h5, List.reverse_cons]
          have hr0 : r0 ≠ slashB := by
            intro hEq
            apply hlast
            rw [hP3eq, getLastD_append_right _ _ _ (by simp)]
            simp [hEq, List.getLastD]
          refine Or.inr ⟨joinB slashB (s0 :: srest), ?_⟩
          rw [dropWhile_cons_of_neg _ _ _ (by simpa using hr0), ← hrev,
            List.reverse_reverse]

theorem joinPaths_shape (B lp : Str) (hB : B = [] ∨ ∃ t, B = slashB :: t) :
    (∃ t, joinPaths B lp = slashB :: t) ∧
      pathClean (joinPaths B lp) = joinPaths B lp := by
  unfold joinPaths
  rcases hB with hB | ⟨t, hB⟩
  · subst hB
    rw [if_pos (show trimSpace [] = [] from rfl)]
    by_cases hl : trimSpace lp = []
    · rw [if_pos hl]
      exact ⟨⟨[], rfl⟩, by decide⟩
    · rw [if_neg hl]
      have hane : withSlash (trimSpace lp) ≠ [] := by
        unfold withSlash
        split_ifs with h
        · exact hl
        · simp
      have hah : (withSlash (trimSpace lp)).headD 0 = slashB := by
        unfold withSlash
        split_ifs with h
        · exact h
        · simp
      exact ⟨⟨_, pathClean_rooted _ hane hah⟩, pathClean_rooted_idem _ hane hah⟩
  · subst hB
    obtain ⟨u, hu⟩ := trimSpace_cons_not_space slashB t isSpaceB_slash
    rw [hu]
    rw [if_neg (by simp)]
    by_cases hl : trimSpace lp = []
    · rw [if_pos hl]
      exact ⟨⟨_, pathClean_rooted _ (by simp) (by simp)⟩,
        pathClean_rooted_idem _ (by simp) (by simp)⟩
    · rw [if_neg hl]
      exact ⟨⟨_, pathClean_rooted _ (by simp) (by simp)⟩,
        pathClean_rooted_idem _ (by simp) (by simp)⟩

/-! ### Claim C10: path joining -/

/-- Claim C10: for every configured base path and declared listen path, the
resolved path (base normalized by `normalizeBasePath`, then joined by
`joinPaths`) always starts with `/` and is fully cleaned (a `pathClean`
fixpoint, i.e. no redundant segments); both inputs empty yield `"/"`; and a
base prefix of `"/"` contributes exactly as much as an empty one. -/
theorem c10_pathJoining : ∀ b lp : Str,
    (∃ t, joinPaths (normalizeBasePath b) lp = slashB :: t) ∧
      pathClean (joinPaths (normalizeBasePath b) lp) =
        joinPaths (normalizeBasePath b) lp ∧
      joinPaths (normalizeBasePath []) [] = [slashB] ∧
      joinPaths (normalizeBasePath [slashB]) lp =
        joinPaths (normalizeBasePath []) lp := by
  intro b lp
  have hshape := joinPaths_shape (normalizeBasePath b) lp (normalizeBasePath_shape b)
  refine ⟨hshape.1, hshape.2, by decide, ?_⟩
  have h1 : normalizeBasePath [slashB] = normalizeBasePath [] := by decide
  rw [h1]

/-! ### SHA-256, base-32 and `relayID` (`internal/config/resolve.go`) -/

/-- Two to the thirty-second, the modulus of 32-bit arithmetic. -/
def w32 : Nat := 4294967296

/-- Rotate a 32-bit word right by `n`. -/
def rotr32 (n x : Nat) : Nat :=
  ((x >>> n) ||| (x <<< (32 - n))) % w32

/-- SHA-256 small sigma 0. -/
def ssig0 (x : Nat) : Nat := (rotr32 7 x) ^^^ (rotr32 18 x) ^^^ (x >>> 3)

/-- SHA-256 small sigma 1. -/
def ssig1 (x : Nat) : Nat := (rotr32 17 x) ^^^ (rotr32 19 x) ^^^ (x >>> 10)

/-- SHA-256 big sigma 0. -/
def bsig0 (x : Nat) : Nat := (rotr32 2 x) ^^^ (rotr32 13 x) ^^^ (rotr32 22 x)

/-- SHA-256 big sigma 1. -/
def bsig1 (x : Nat) : Nat := (rotr32 6 x) ^^^ (rotr32 11 x) ^^^ (rotr32 25 x)

/-- The 64 SHA-256 round constants (FIPS 180-4 §4.2.2), in decimal. -/
def shaK : List Nat :=
  [1116352408, 1899447441, 3049323471, 3921009573, 961987163,
   1508970993, 2453635748, 2870763221, 3624381080, 310598401,
   607225278, 1426881987, 1925078388, 2162078206, 2614888103,
   3248222580, 3835390401, 4022224774, 264347078, 604807628,
   770255983, 1249150122, 1555081692, 1996064986, 2554220882,
   2821834349, 2952996808, 3210313671, 3336571891, 3584528711,
   113926993, 338241895, 666307205, 773529912, 1294757372,
   1396182291, 1695183700, 1986661051, 2177026350, 2456956037,
   2730485921, 2820302411, 3259730800, 3345764771, 3516065817,
   3600352804, 4094571909, 275423344, 430227734, 506948616,
   659060556, 883997877, 958139571, 1322822218, 1537002063,
   1747873779, 1955562222, 2024104815, 2227730452, 2361852424,
   2428436474, 2756734187, 3204031479, 3329325298]

/-- The SHA-256 initial hash value (FIPS 180-4 §5.3.3), in decimal. -/
def shaInit : List Nat :=
  [1779033703, 3144134277, 1013904242, 2773480762,
   1359893119, 2600822924, 528734635, 1541459225]

/-- Big-endian bytes of `x`, width `n`. -/
def toBytesBE (n x : Nat) : List Nat :=
  (List.range n).map (fun i => (x >>> (8 * (n - 1 - i))) % 256)

/-- FIPS-180-4 padding: append `0x80`, zeros to 56 mod 64, and the 64-bit
big-endian bit length. -/
def shaPad (msg : List Nat) : List Nat :=
  msg ++ [128] ++ List.replicate ((119 - msg.length % 64) % 64) 0 ++
    toBytesBE 8 (8 * msg.length)

/-- Group bytes into big-endian 32-bit words. -/
def toWords32 : List Nat → List Nat
  | b0 :: b1 :: b2 :: b3 :: rest =>
    ((b0 <<< 24) ||| (b1 <<< 16) ||| (b2 <<< 8) ||| b3) :: toWords32 rest
  | _ => []

/-- Split a byte list into 64-byte blocks (structural recursion on a fuel
bound, so the definition evaluates by kernel reduction). -/
def chunks64F : Nat → List Nat → List (List Nat)
  | _, [] => []
  | 0, _ :: _ => []
  | fuel + 1, b :: rest => ((b :: rest).take 64) :: chunks64F fuel ((b :: rest).drop 64)

/-- Split a byte list into 64-byte blocks. -/
def chunks64 (l : List Nat) : List (List Nat) :=
  chunks64F l.length l

/-- Extend the 16 message words to 64 (performed 48 times). -/
def shaExtend : List Nat → Nat → List Nat
  | w, 0 => w
  | w, k + 1 =>
    let i := w.length
    shaExtend
      (w ++ [(ssig1 (w.getD (i - 2) 0) + w.getD (i - 7) 0 +
        ssig0 (w.getD (i - 15) 0) + w.getD (i - 16) 0) % w32]) k

/-- The eight SHA-256 working variables. -/
structure SHAState where
  a : Nat
  b : Nat
  c : Nat
  d : Nat
  e : Nat
  f : Nat
  g : Nat
  h : Nat

/-- One SHA-256 compression round; `kw` is the pair of round constant and
message-schedule word. -/
def shaStep (st : SHAState) (kw : Nat × Nat) : SHAState :=
  let ch := (st.e &&& st.f) ^^^ (((w32 - 1) ^^^ st.e) &&& st.g)
  let t1 := (st.h + bsig1 st.e + ch + kw.1 + kw.2) % w32
  let maj := (st.a &&& st.b) ^^^ (st.a &&& st.c) ^^^ (st.b &&& st.c)
  let t2 := (bsig0 st.a + maj) % w32
  { a := (t1 + t2) % w32, b := st.a, c := st.b, d := st.c,
    e := (st.d + t1) % w32, f := st.e, g := st.f, h := st.g }

/-- Compress one 64-byte block into the running hash. -/
def shaCompress (H : List Nat) (block : List Nat) : List Nat :=
  let w := shaExtend (toWords32 block) 48
  let st := (shaK.zip w).foldl shaStep
    ⟨H.getD 0 0, H.getD 1 0, H.getD 2 0, H.getD 3 0,
      H.getD 4 0, H.getD 5 0, H.getD 6 0, H.getD 7 0⟩
  [(H.getD 0 0 + st.a) % w32, (H.getD 1 0 + st.b) % w32,
   (H.getD 2 0 + st.c) % w32, (H.getD 3 0 + st.d) % w32,
   (H.getD 4 0 + st.e) % w32, (H.getD 5 0 + st.f) % w32,
   (H.getD 6 0 + st.g) % w32, (H.getD 7 0 + st.h) % w32]

/-- SHA-256 of a byte string (Go `sha256.Sum256`), as its 32 digest bytes. -/
def sha256 (msg : List Nat) : List Nat :=
  (((chunks64 (shaPad msg)).foldl shaCompress shaInit).map (toBytesBE 4)).join

/-- The eight bits of a byte, most significant first. -/
def byteBits (b : Nat) : List Bool :=
  (List.range 8).map (fun i => ((b >>> (7 - i)) &&& 1) == 1)

/-- The bit stream of a byte string. -/
def bitsOfBytes (bs : List Nat) : List Bool :=
  (bs.map byteBits).join

/-- Split a bit stream into 5-bit quanta, on a structural fuel bound. -/
def chunk5F : Nat → List Bool → List (List Bool)
  | _, [] => []
  | 0, _ :: _ => []
  | fuel + 1, b :: rest => ((b :: rest).take 5) :: chunk5F fuel ((b :: rest).drop 5)

/-- Split a bit stream into 5-bit quanta (the last may be short). -/
def chunk5 (l : List Bool) : List (List Bool) :=
  chunk5F l.length l

/-- The value of a big-endian bit list. -/
def bitsVal (c : List Bool) : Nat :=
  c.foldl (fun n b => 2 * n + (if b then 1 else 0)) 0

/-- The RFC 4648 standard base-32 alphabet (Go `base32.StdEncoding`). -/
def b32alphabet : Str := bytes "ABCDEFGHIJKLMNOPQRSTUVWXYZ234567"

/-- Unpadded standard base-32 encoding
(Go `base32.StdEncoding.WithPadding(base32.NoPadding)`): each 5-bit quantum,
zero-filled on the right, indexes the alphabet. -/
def base32NoPad (bs : List Nat) : Str :=
  (chunk5 (bitsOfBytes bs)).map
    (fun q => b32alphabet.getD ((bitsVal q) <<< (5 - q.length)) 0)

/-- `relayID` from `internal/config/resolve.go`: the SHA-256 digest of the
resolved listen path, base-32 encoded without padding, lower-cased, truncated
to 16 bytes. -/
def relayID (listenPath : Str) : Str :=
  ((base32NoPad (sha256 listenPath)).map goToLower).take 16

theorem toBytesBE_length (n x : Nat) : (toBytesBE n x).length = n := by
  simp [toBytesBE]

theorem shaCompress_length (H blk : List Nat) : (shaCompress H blk).length = 8 := rfl

theorem foldl_shaCompress_length (blocks : List (List Nat)) :
    ∀ H : List Nat, H.length = 8 → (blocks.foldl shaCompress H).length = 8 := by
  induction blocks with
  | nil => exact fun H hH => hH
  | cons b rest ih =>
    intro H _
    exact ih (shaCompress H b) (shaCompress_length H b)

theorem length_join_toBytes (H : List Nat) :
    ((H.map (toBytesBE 4)).join).length = 4 * H.length := by
  induction H with
  | nil => rfl
  | cons x rest ih =>
    simp only [List.map_cons, List.join_cons, List.length_append,
      toBytesBE_length, List.length_cons, ih]
    omega

theorem sha256_length (msg : List Nat) : (sha256 msg).length = 32 := by
  unfold sha256
  rw [length_join_toBytes,
    foldl_shaCompress_length (chunks64 (shaPad msg)) shaInit rfl]

theorem div5_step (m : Nat) (hm : 1 ≤ m) :
    (m - 5 + 4) / 5 + 1 = (m + 4) / 5 := by
  rcases Nat.lt_or_ge m 5 with h | h
  · interval_cases m <;> decide
  · have h1 : m - 5 + 4 = m - 1 := by omega
    have h2 : m + 4 = (m - 1) + 5 := by omega
    rw [h1, h2, Nat.add_div_right _ (by norm_num)]

theorem chunk5F_length : ∀ (fuel : Nat) (l : List Bool), l.length ≤ fuel →
    (chunk5F fuel l).length = (l.length + 4) / 5 := by
  intro fuel
  induction fuel with
  | zero =>
    intro l hl
    have : l = [] := List.eq_nil_of_length_eq_zero (Nat.le_zero.mp hl)
    subst this
    rfl
  | succ n ih =>
    intro l hl
    cases l with
    | nil => rfl
    | cons b rest =>
      simp only [chunk5F, List.length_cons]
      have hdl : ((b :: rest).drop 5).length = (b :: rest).length - 5 :=
        List.length_drop 5 (b :: rest)
      have hih := ih ((b :: rest).drop 5) (by
        rw [hdl]
        simp only [List.length_cons] at hl ⊢
        omega)
      rw [hih, hdl]
      simpa using div5_step (b :: rest).length (by simp)

theorem byteBits_length (b : Nat) : (byteBits b).length = 8 := by
  simp [byteBits]

theorem bitsOfBytes_length (bs : List Nat) :
    (bitsOfBytes bs).length = 8 * bs.length := by
  unfold bitsOfBytes
  induction bs with
  | nil => rfl
  | cons x rest ih =>
    simp only [List.map_cons, List.join_cons, List.length_append,
      byteBits_length, List.length_cons, ih]
    omega

theorem base32NoPad_length (bs : List Nat) :
    (base32NoPad bs).length = (8 * bs.length + 4) / 5 := by
  unfold base32NoPad chunk5
  rw [List.length_map, chunk5F_length _ _ le_rfl, bitsOfBytes_length]

theorem relayID_length (p : Str) : (relayID p).length = 16 := by
  unfold relayID
  rw [List.length_take, List.length_map, base32NoPad_length, sha256_length]
  decide

/-- Validation of the SHA-256 embedding on the FIPS-180 test vector `"abc"`. -/
theorem sha256_vector_abc :
    sha256 (bytes "abc") =
      [0xba, 0x78, 0x16, 0xbf, 0x8f, 0x01, 0xcf, 0xea, 0x41, 0x41, 0x40, 0xde,
       0x5d, 0xae, 0x22, 0x23, 0xb0, 0x03, 0x61, 0xa3, 0x96, 0x17, 0x7a, 0x9c,
       0xb4, 0x10, 0xff, 0x61, 0xf2, 0x00, 0x15, 0xad] := by
  decide

/-- Validation of the base-32 embedding on the RFC 4648 test vector `"hello"`. -/
theorem base32_vector_hello :
    base32NoPad (bytes "hello") = bytes "NBSWY3DP" := by
  decide

/-! ### Claim C9: relay ID derivation -/

/-- Claim C9: the relay ID is the SHA-256 digest of the resolved listen path,
base-32 encoded without padding, lower-cased and truncated to exactly 16
characters; its length is always exactly 16, and it is a deterministic function
of the path. -/
theorem c9_relayID : ∀ p : Str,
    relayID p = ((base32NoPad (sha256 p)).map goToLower).take 16 ∧
      (relayID p).length = 16 ∧
      ∀ q : Str, p = q → relayID p = relayID q := by
  intro p
  exact ⟨rfl, relayID_length p, fun q h => by rw [h]⟩

/-- Claim C9 witness: determinism instantiated at the concrete path `"/hook"`. -/
theorem c9_relayID_witness : relayID (bytes "/hook") = relayID (bytes "/hook") :=
  (c9_relayID (bytes "/hook")).2.2 (bytes "/hook") rfl

end WebhookRelay
